import Mathlib

/-!
Verification development for the NGW QML style-expression rewriter
(`src/nextgis_connect/qml_processor.py`, class `QMLProcessor`, and its
near-identical copy `NGWQMLProcessor` in `src/nextgis_connect/utils.py`).

The Python code is shallowly embedded:

* expressions are `String`/`List Char`; the Python `re` operations used by
  the rewriter (`re.sub(r"'[^']*'", ...)` and
  `re.subn(rf'"{F}"|\b{F}\b', ...)`) are modelled by explicit left-to-right
  scanners (`eraseGo`, `subGo`) implementing the leftmost-match,
  first-alternative-first semantics of those concrete patterns;
* Python's `\w` (word character) is modelled ASCII-only
  (`isAlphanum || '_'`), which agrees with the sources' inputs;
* the Qt DOM (`QDomDocument`) is modelled as a tree of elements with a tag,
  an attribute list and children.  `elementsByTagName` iteration in document
  order with in-place attribute mutation is modelled by top-down tree maps
  (only attributes are ever mutated, so tag-indexed node lists are stable);
* serialization (`QDomDocument.toString`) is modelled by a plain
  deterministic XML writer.
-/

/-- A word character in the sense of Python's `\b` regex assertion
(ASCII model of `\w`). -/
def isW (c : Char) : Bool := c.isAlphanum || c == '_'

/-- Wordness of an optional character; the edge of the string counts as
non-word for `\b`. -/
def wOpt : Option Char → Bool
  | none => false
  | some c => isW c

/-- The placeholder token `$$<i>$$` produced by
`QMLProcessor._erase_simple_text`'s replacer. -/
def placeholder (i : Nat) : List Char := '$' :: '$' :: (Nat.repr i).data ++ ['$', '$']

/-- Split a character list at the first single quote: returns the part
before the quote and the part after it (the quote itself dropped). -/
def spanQuote : List Char → Option (List Char × List Char)
  | [] => none
  | c :: cs =>
    if c == '\'' then some ([], cs)
    else (spanQuote cs).map (fun p => (c :: p.1, p.2))

/-- Scanner for `re.sub(r"'[^']*'", replacer, expression)` as used by
`QMLProcessor._erase_simple_text`: each complete `'...'` run, in
left-to-right order, is replaced by `placeholder k` and its original text
recorded.  `skip` counts characters of a matched run still to be consumed. -/
def eraseGo (k : Nat) (skip : Nat) : List Char → List Char × List (List Char)
  | [] => ([], [])
  | c :: cs =>
    match skip with
    | Nat.succ sk => eraseGo k sk cs
    | 0 =>
      if c == '\'' then
        match spanQuote cs with
        | none => (c :: cs, [])
        | some p =>
          let r := eraseGo (k + 1) (p.1.length + 1) cs
          (placeholder k ++ r.1, ('\'' :: p.1 ++ ['\'']) :: r.2)
      else
        let r := eraseGo k 0 cs
        (c :: r.1, r.2)

/-- `QMLProcessor._erase_simple_text`: replace quoted text in the
expression with placeholders, returning the masked expression and the list
of replaced parts. -/
def erase_simple_text (expression : String) : String × List String :=
  let r := eraseGo 0 0 expression.data
  (String.mk r.1, r.2.map String.mk)

/-- Python `str.replace(old, new, 1)`: replace the first occurrence only. -/
def replaceFirst (pat repl : List Char) : List Char → List Char
  | [] => []
  | c :: cs =>
    if pat.isPrefixOf (c :: cs) then repl ++ (c :: cs).drop pat.length
    else c :: replaceFirst pat repl cs

/-- The loop body of `QMLProcessor._restore_simple_text`: for each index in
ascending order, replace the first remaining occurrence of its placeholder
token with the original literal text. -/
def restoreAux (i : Nat) (parts : List (List Char)) (e : List Char) : List Char :=
  match parts with
  | [] => e
  | p :: ps => restoreAux (i + 1) ps (replaceFirst (placeholder i) p e)

/-- `QMLProcessor._restore_simple_text`. -/
def restore_simple_text (expression : String) (parts : List String) : String :=
  String.mk (restoreAux 0 (parts.map String.data) expression.data)

/-- Scanner for `re.subn(rf'"{re.escape F}"|\b{re.escape F}\b', repl, s)`:
left-to-right scan; at each position the quoted alternative `"F"` is tried
first, then the bare word-boundary alternative `\bF\b`; a match emits
`repl` once and consumes the matched characters (`skip` counts matched
characters still to be consumed; `prev` is the previously consumed
character, for the `\b` assertions).  The zero-width behaviour of `\b\b`
for an empty field name is not modelled (the rewriter never substitutes an
empty field name). -/
def subGo (F repl : List Char) (prev : Option Char) (skip : Nat) : List Char → List Char × Nat
  | [] => ([], 0)
  | c :: cs =>
    match skip with
    | Nat.succ sk => subGo F repl (some c) sk cs
    | 0 =>
      if ('"' :: (F ++ ['"'])).isPrefixOf (c :: cs) then
        let r := subGo F repl (some c) (F.length + 1) cs
        (repl ++ r.1, r.2 + 1)
      else if (!F.isEmpty) && F.isPrefixOf (c :: cs)
          && (wOpt prev != isW c)
          && (wOpt F.getLast? != wOpt ((c :: cs).drop F.length).head?) then
        let r := subGo F repl (some c) (F.length - 1) cs
        (repl ++ r.1, r.2 + 1)
      else
        let r := subGo F repl (some c) 0 cs
        (c :: r.1, r.2)

/-- `re.subn` with the field-reference pattern, at `String` level:
returns the substituted string and the match count. -/
def subPattern (field repl expression : String) : String × Nat :=
  let r := subGo field.data repl.data none 0 expression.data
  (String.mk r.1, r.2)

/-- `QMLProcessor._pk_to_id`: replace PK field references with `@id`. -/
def pk_to_id (pk_field_name expression : String) : String × Bool :=
  let r := subPattern pk_field_name "@id" expression
  (r.1, r.2 != 0)

/-- `QMLProcessor._bool_to_int`: replace boolean field references with
`if("F", true, false)`. -/
def bool_to_int (field_name expression : String) : String × Bool :=
  let r := subPattern field_name ("if(\"" ++ field_name ++ "\", true, false)") expression
  (r.1, r.2 != 0)

/-! ## Layer metadata (the constructor's inputs)

`FieldType` models both `nextgis_connect.compat.FieldType` and the
`QVariant` type codes used by `NGWQMLProcessor`; `Layer` models the
`QgsMapLayer` accessors read by the constructors. -/

inductive FieldType where
  | Bool
  | LongLong
  | Other
deriving DecidableEq, Repr

instance : BEq FieldType := ⟨fun a b => decide (a = b)⟩

structure LayerField where
  name : String
  type : FieldType
deriving Repr

structure Layer where
  fields : List LayerField
  providerType : String
  primaryKeyAttributes : List Nat
deriving Repr

/-- The rewrite context derived by `QMLProcessor.__init__`. -/
structure RewriteCtx where
  bool_fields_name : List String
  pk_field_name : String
  need_check_pk : Bool
deriving Repr

/-! ## The document tree (model of `QDomDocument`) -/

mutual
inductive Elem where
  | mk (tag : String) (attrs : List (String × String)) (children : ElemList)
deriving Repr
inductive ElemList where
  | nil
  | cons (head : Elem) (tail : ElemList)
deriving Repr
end

/-- `QDomElement.attribute` lookup helper: `none` when absent. -/
def findAttr (attrs : List (String × String)) (name : String) : Option String :=
  match attrs with
  | [] => none
  | kv :: rest => if kv.1 == name then some kv.2 else findAttr rest name

/-- `QDomElement.attribute`: the empty string when the attribute is absent. -/
def getAttr (attrs : List (String × String)) (name : String) : String :=
  (findAttr attrs name).getD ""

/-- `QDomElement.hasAttribute`. -/
def hasAttr (attrs : List (String × String)) (name : String) : Bool :=
  (findAttr attrs name).isSome

/-- `QDomElement.setAttribute`: replace in place, or append when absent. -/
def setAttr (attrs : List (String × String)) (name v : String) : List (String × String) :=
  match attrs with
  | [] => [(name, v)]
  | kv :: rest => if kv.1 == name then (kv.1, v) :: rest else kv :: setAttr rest name v

def Elem.tag : Elem → String
  | .mk t _ _ => t

def Elem.attrs : Elem → List (String × String)
  | .mk _ a _ => a

def Elem.children : Elem → ElemList
  | .mk _ _ c => c

mutual
/-- Number of elements with the given tag in an element's subtree
(the element itself included). -/
def Elem.countTag (t : String) : Elem → Nat
  | .mk tag _ cs => (if tag == t then 1 else 0) + ElemList.countTag t cs
def ElemList.countTag (t : String) : ElemList → Nat
  | .nil => 0
  | .cons e es => Elem.countTag t e + ElemList.countTag t es
end

mutual
/-- Apply an attribute transform to every element with the given tag, in
document order, or-ing the change flags.  This models iterating a
`elementsByTagName` node list and calling `setAttribute` on each node:
only attributes are mutated, so the node list is stable. -/
def Elem.mapTagAttrs (t : String)
    (f : List (String × String) → List (String × String) × Bool) : Elem → Elem × Bool
  | .mk tag attrs cs =>
    let hd := if tag == t then f attrs else (attrs, false)
    let tl := ElemList.mapTagAttrs t f cs
    (.mk tag hd.1 tl.1, hd.2 || tl.2)
def ElemList.mapTagAttrs (t : String)
    (f : List (String × String) → List (String × String) × Bool) : ElemList → ElemList × Bool
  | .nil => (.nil, false)
  | .cons e es =>
    let h := Elem.mapTagAttrs t f e
    let t' := ElemList.mapTagAttrs t f es
    (.cons h.1 t'.1, h.2 || t'.2)
end

mutual
/-- Apply a subtree transform to the first element with the given tag in
document order (`elementsByTagName(...).at(0)`); the second component of
the result tells whether a matching element was found. -/
def Elem.updateFirstTag (t : String) (f : Elem → Elem × Bool) : Elem → Elem × Bool × Bool
  | .mk tag attrs cs =>
    if tag == t then
      let r := f (.mk tag attrs cs)
      (r.1, true, r.2)
    else
      let r := ElemList.updateFirstTag t f cs
      (.mk tag attrs r.1, r.2)
def ElemList.updateFirstTag (t : String) (f : Elem → Elem × Bool) : ElemList → ElemList × Bool × Bool
  | .nil => (.nil, false, false)
  | .cons e es =>
    let r := Elem.updateFirstTag t f e
    if r.2.1 then (.cons r.1 es, true, r.2.2)
    else
      let r2 := ElemList.updateFirstTag t f es
      (.cons r.1 r2.1, r2.2)
end

mutual
/-- Apply a subtree transform to the `n`-th (0-based, document order)
element with the given tag; the middle component carries the remaining
index while the target has not been reached (`none` once applied). -/
def Elem.updateNthTag (t : String) (f : Elem → Elem × Bool) (n : Nat) : Elem → Elem × Option Nat × Bool
  | .mk tag attrs cs =>
    if tag == t then
      match n with
      | 0 =>
        let r := f (.mk tag attrs cs)
        (r.1, none, r.2)
      | Nat.succ m =>
        let r := ElemList.updateNthTag t f m cs
        (.mk tag attrs r.1, r.2)
    else
      let r := ElemList.updateNthTag t f n cs
      (.mk tag attrs r.1, r.2)
def ElemList.updateNthTag (t : String) (f : Elem → Elem × Bool) (n : Nat) : ElemList → ElemList × Option Nat × Bool
  | .nil => (.nil, some n, false)
  | .cons e es =>
    let r := Elem.updateNthTag t f n e
    match r.2.1 with
    | none => (.cons r.1 es, none, r.2.2)
    | some m =>
      let r2 := ElemList.updateNthTag t f m es
      (.cons r.1 r2.1, r2.2)
end

/-- Fold a subtree transform over a sibling list, or-ing change flags. -/
def ElemList.mapOver (g : Elem → Elem × Bool) : ElemList → ElemList × Bool
  | .nil => (.nil, false)
  | .cons e es =>
    let r := g e
    let r2 := ElemList.mapOver g es
    (.cons r.1 r2.1, r.2 || r2.2)

mutual
def Elem.depth : Elem → Nat
  | .mk _ _ cs => ElemList.depth cs + 1
def ElemList.depth : ElemList → Nat
  | .nil => 0
  | .cons e es => max (Elem.depth e) (ElemList.depth es)
end

/-- Apply a subtree transform to every element with the given tag,
top-down (document order): the transform is applied to a matching element
first, then the traversal continues inside the transformed subtree, as a
live `elementsByTagName` iteration does.  `fuel` bounds the recursion
depth; callers pass at least the tree depth, and the transforms used here
preserve structure, so the fuel is never exhausted. -/
def Elem.mapTagDeep (t : String) (f : Elem → Elem × Bool) : Nat → Elem → Elem × Bool
  | 0, e => (e, false)
  | Nat.succ fu, .mk tag attrs cs =>
    if tag == t then
      match f (.mk tag attrs cs) with
      | (.mk tag2 attrs2 cs2, fl) =>
        let r := ElemList.mapOver (Elem.mapTagDeep t f fu) cs2
        (.mk tag2 attrs2 r.1, fl || r.2)
    else
      let r := ElemList.mapOver (Elem.mapTagDeep t f fu) cs
      (.mk tag attrs r.1, r.2)

def serializeAttrs : List (String × String) → String
  | [] => ""
  | kv :: rest => " " ++ kv.1 ++ "=\"" ++ kv.2 ++ "\"" ++ serializeAttrs rest

mutual
/-- Deterministic XML writer, the model of `QDomDocument.toString`. -/
def Elem.serialize : Elem → String
  | .mk tag attrs cs =>
    "<" ++ tag ++ serializeAttrs attrs ++ ">" ++ ElemList.serialize cs ++ "</" ++ tag ++ ">"
def ElemList.serialize : ElemList → String
  | .nil => ""
  | .cons e es => Elem.serialize e ++ ElemList.serialize es
end

/-- ASCII model of Python `str.lower`. -/
def strLower (s : String) : String := String.mk (s.data.map Char.toLower)

namespace QMLProcessor

/-- `QMLProcessor.__init__` (`qml_processor.py` lines 24-58): derive the
boolean field names and the optional primary-key field name.  Python's
`self._layer.fields()[idx]` is modelled total via `getD` (QGIS primary-key
indices are always in range). -/
def init (layer : Layer) : RewriteCtx :=
  let bool_fields_name :=
    (layer.fields.filter (fun f => f.type == FieldType.Bool)).map LayerField.name
  let need_check_pk := layer.providerType == "ogr"
  match need_check_pk, layer.primaryKeyAttributes with
  | true, idx :: _ =>
    let pk_field := layer.fields.getD idx ⟨"", FieldType.Other⟩
    if pk_field.type == FieldType.LongLong then ⟨bool_fields_name, pk_field.name, true⟩
    else ⟨bool_fields_name, "", false⟩
  | _, _ => ⟨bool_fields_name, "", false⟩

/-- Body of the `text-style` loop of `QMLProcessor._process_label`
(lines 93-126) for one element's attributes; the second component is the
change recorded into `_has_change`.  The restoration result is computed
and discarded, exactly as in the source. -/
def process_label_elem (ctx : RewriteCtx) (attrs : List (String × String)) :
    List (String × String) × Bool :=
  if !hasAttr attrs "fieldName" then (attrs, false)
  else
    let label_expression := getAttr attrs "fieldName"
    if label_expression == "@id" then (attrs, false)
    else
      let ep := erase_simple_text label_expression
      let st1 : List (String × String) × String × Bool :=
        if ctx.need_check_pk then
          let r := pk_to_id ctx.pk_field_name ep.1
          if r.2 then (setAttr (setAttr attrs "isExpression" "1") "fieldName" r.1, r.1, true)
          else (attrs, r.1, false)
        else (attrs, ep.1, false)
      let st2 := ctx.bool_fields_name.foldl (fun st field_name =>
          let r := bool_to_int field_name st.2.1
          if r.2 then (setAttr (setAttr st.1 "isExpression" "1") "fieldName" r.1, r.1, true)
          else (st.1, r.1, st.2.2)) st1
      let _restored := restore_simple_text st2.2.1 ep.2
      (st2.1, st2.2.2)

/-- `QMLProcessor._process_label`: every `text-style` element of the
document. -/
def process_label (ctx : RewriteCtx) (d : ElemList) : ElemList × Bool :=
  ElemList.mapTagAttrs "text-style" (process_label_elem ctx) d

/-- Body of the `rule` loop of `QMLProcessor._process_rules`
(lines 141-155) for one element's attributes.  Note the restored filter is
written back unconditionally once the guards pass, while `_has_change` is
only set when the PK substitution matched. -/
def process_rule_elem (ctx : RewriteCtx) (attrs : List (String × String)) :
    List (String × String) × Bool :=
  let filter_expr := getAttr attrs "filter"
  if filter_expr == "" then (attrs, false)
  else if !ctx.need_check_pk then (attrs, false)
  else
    let ep := erase_simple_text filter_expr
    let r := pk_to_id ctx.pk_field_name ep.1
    let expression := restore_simple_text r.1 ep.2
    (setAttr attrs "filter" expression, r.2)

/-- The per-`rules`-element body of `QMLProcessor._process_rules`: every
`rule` descendant of the first `rules` element. -/
def rules_apply (ctx : RewriteCtx) (rules_node : Elem) : Elem × Bool :=
  let m := ElemList.mapTagAttrs "rule" (process_rule_elem ctx) rules_node.children
  (.mk rules_node.tag rules_node.attrs m.1, m.2)

/-- `QMLProcessor._process_rules`: the first `rules` descendant of the
renderer, then every `rule` descendant of it. -/
def process_rules (ctx : RewriteCtx) (e : Elem) : Elem × Bool :=
  let r := ElemList.updateFirstTag "rules" (rules_apply ctx) e.children
  (.mk e.tag e.attrs r.1, r.2.2)

/-- Body of the `category` loop of `QMLProcessor._process_categories`
(lines 164-176) for one element's attributes; `_has_change` is set for
every `bool`-typed category. -/
def process_category_elem (attrs : List (String × String)) :
    List (String × String) × Bool :=
  if getAttr attrs "type" != "bool" then (attrs, false)
  else
    let attrs1 := setAttr attrs "type" "integer"
    let value := getAttr attrs1 "value"
    let attrs2 :=
      if strLower value == "true" then setAttr attrs1 "value" "1"
      else if strLower value == "false" then setAttr attrs1 "value" "0"
      else attrs1
    (attrs2, true)

/-- `QMLProcessor._process_categories`: every `category` descendant of the
renderer. -/
def process_categories (e : Elem) : Elem × Bool :=
  let r := ElemList.mapTagAttrs "category" process_category_elem e.children
  (.mk e.tag e.attrs r.1, r.2)

/-- Body of the `Option` loop of `QMLProcessor._process_user_defines`
(lines 192-213) for one element's attributes.  The masked, substituted
expression is written back; the restoration result is computed afterwards
and discarded, exactly as in the source. -/
def process_option_elem (ctx : RewriteCtx) (attrs : List (String × String)) :
    List (String × String) × Bool :=
  if !hasAttr attrs "name" || getAttr attrs "name" != "expression" then (attrs, false)
  else
    let option_expression := getAttr attrs "value"
    let ep := erase_simple_text option_expression
    let r := pk_to_id ctx.pk_field_name ep.1
    let attrs2 := setAttr attrs "value" r.1
    let _restored := restore_simple_text r.1 ep.2
    (attrs2, r.2)

/-- The per-`data_defined_properties`-element body of
`QMLProcessor._process_user_defines`: every `Option` descendant. -/
def ddp_apply (ctx : RewriteCtx) (data_node : Elem) : Elem × Bool :=
  let m := ElemList.mapTagAttrs "Option" (process_option_elem ctx) data_node.children
  (.mk data_node.tag data_node.attrs m.1, m.2)

/-- `QMLProcessor._process_user_defines`: when the PK check is enabled,
every `data_defined_properties` element of the document, and inside each
its `Option` descendants. -/
def process_user_defines (ctx : RewriteCtx) (d : ElemList) : ElemList × Bool :=
  if !ctx.need_check_pk then (d, false)
  else
    ElemList.mapOver
      (Elem.mapTagDeep "data_defined_properties" (ddp_apply ctx) (ElemList.depth d + 1)) d

/-- Renderer dispatch of `QMLProcessor.process` (lines 258-262). -/
def renderer_step (ctx : RewriteCtx) (e : Elem) : Elem × Bool :=
  if hasAttr e.attrs "type" then
    if getAttr e.attrs "type" == "categorizedSymbol" then process_categories e
    else if getAttr e.attrs "type" == "RuleRenderer" then process_rules ctx e
    else (e, false)
  else (e, false)

/-- One iteration of the renderer loop of `QMLProcessor.process`: dispatch
on the `i`-th `renderer-v2` element, then `_process_label` and
`_process_user_defines` over the whole document. -/
def walk_step (ctx : RewriteCtx) (st : ElemList × Bool) (i : Nat) : ElemList × Bool :=
  let r1 := ElemList.updateNthTag "renderer-v2" (renderer_step ctx) i st.1
  let r2 := process_label ctx r1.1
  let r3 := process_user_defines ctx r2.1
  (r3.1, st.2 || r1.2.2 || r2.2 || r3.2)

/-- The document mutation performed by `QMLProcessor.process` together
with the final `_has_change` flag. -/
def walk (ctx : RewriteCtx) (d : ElemList) : ElemList × Bool :=
  (List.range (ElemList.countTag "renderer-v2" d)).foldl (walk_step ctx) (d, false)

/-- `QMLProcessor.process` (lines 247-267).  `qml` is the constructor's
`qml_xml_string` and `d` the tree parsed from it by `setContent`. -/
def process (qml : String) (ctx : RewriteCtx) (d : ElemList) : String :=
  let r := (List.range (ElemList.countTag "renderer-v2" d)).foldl (walk_step ctx) (d, false)
  if r.2 then ElemList.serialize r.1 else qml

end QMLProcessor

namespace NGWQMLProcessor

/-! Transliteration of the legacy copy, class `NGWQMLProcessor` in
`src/nextgis_connect/utils.py` (lines 285-462).  Its method bodies differ
from `QMLProcessor` only in naming conventions and in spelling some
conditions as `not x == y`; the shared `re`/`str` primitives are the same
library, hence modelled by the same scanners. -/

/-- `NGWQMLProcessor.__init__` (`utils.py` lines 286-310); note the
inverted spelling `if not pk_field.type() == QVariant.LongLong`. -/
def init (layer : Layer) : RewriteCtx :=
  let bool_fields_name :=
    (layer.fields.filter (fun f => f.type == FieldType.Bool)).map LayerField.name
  let need_check_pk := layer.providerType == "ogr"
  match need_check_pk, layer.primaryKeyAttributes with
  | true, idx :: _ =>
    let pk_field := layer.fields.getD idx ⟨"", FieldType.Other⟩
    if !(pk_field.type == FieldType.LongLong) then ⟨bool_fields_name, "", false⟩
    else ⟨bool_fields_name, pk_field.name, true⟩
  | _, _ => ⟨bool_fields_name, "", false⟩

/-- `NGWQMLProcessor.process_label` loop body (`utils.py` lines 327-357). -/
def process_label_elem (ctx : RewriteCtx) (attrs : List (String × String)) :
    List (String × String) × Bool :=
  if !hasAttr attrs "fieldName" then (attrs, false)
  else
    let label_expression := getAttr attrs "fieldName"
    if label_expression == "@id" then (attrs, false)
    else
      let ep := erase_simple_text label_expression
      let st1 : List (String × String) × String × Bool :=
        if ctx.need_check_pk then
          let r := pk_to_id ctx.pk_field_name ep.1
          if r.2 then (setAttr (setAttr attrs "isExpression" "1") "fieldName" r.1, r.1, true)
          else (attrs, r.1, false)
        else (attrs, ep.1, false)
      let st2 := ctx.bool_fields_name.foldl (fun st field_name =>
          let r := bool_to_int field_name st.2.1
          if r.2 then (setAttr (setAttr st.1 "isExpression" "1") "fieldName" r.1, r.1, true)
          else (st.1, r.1, st.2.2)) st1
      let _restored := restore_simple_text st2.2.1 ep.2
      (st2.1, st2.2.2)

def process_label (ctx : RewriteCtx) (d : ElemList) : ElemList × Bool :=
  ElemList.mapTagAttrs "text-style" (process_label_elem ctx) d

/-- `NGWQMLProcessor.process_rules` loop body (`utils.py` lines 366-380). -/
def process_rule_elem (ctx : RewriteCtx) (attrs : List (String × String)) :
    List (String × String) × Bool :=
  let filter_expr := getAttr attrs "filter"
  if filter_expr == "" then (attrs, false)
  else if !ctx.need_check_pk then (attrs, false)
  else
    let ep := erase_simple_text filter_expr
    let r := pk_to_id ctx.pk_field_name ep.1
    let expression := restore_simple_text r.1 ep.2
    (setAttr attrs "filter" expression, r.2)

def rules_apply (ctx : RewriteCtx) (rules_node : Elem) : Elem × Bool :=
  let m := ElemList.mapTagAttrs "rule" (process_rule_elem ctx) rules_node.children
  (.mk rules_node.tag rules_node.attrs m.1, m.2)

def process_rules (ctx : RewriteCtx) (e : Elem) : Elem × Bool :=
  let r := ElemList.updateFirstTag "rules" (rules_apply ctx) e.children
  (.mk e.tag e.attrs r.1, r.2.2)

/-- `NGWQMLProcessor.process_categories` loop body (`utils.py` lines
384-395); note the spelling `if not category.attribute("type") == "bool"`. -/
def process_category_elem (attrs : List (String × String)) :
    List (String × String) × Bool :=
  if !(getAttr attrs "type" == "bool") then (attrs, false)
  else
    let attrs1 := setAttr attrs "type" "integer"
    let value := getAttr attrs1 "value"
    let attrs2 :=
      if strLower value == "true" then setAttr attrs1 "value" "1"
      else if strLower value == "false" then setAttr attrs1 "value" "0"
      else attrs1
    (attrs2, true)

def process_categories (e : Elem) : Elem × Bool :=
  let r := ElemList.mapTagAttrs "category" process_category_elem e.children
  (.mk e.tag e.attrs r.1, r.2)

/-- `NGWQMLProcessor.process_user_defines` loop body (`utils.py` lines
408-429); note the spelling `not option.attribute("name") == "expression"`. -/
def process_option_elem (ctx : RewriteCtx) (attrs : List (String × String)) :
    List (String × String) × Bool :=
  if !hasAttr attrs "name" || !(getAttr attrs "name" == "expression") then (attrs, false)
  else
    let option_expression := getAttr attrs "value"
    let ep := erase_simple_text option_expression
    let r := pk_to_id ctx.pk_field_name ep.1
    let attrs2 := setAttr attrs "value" r.1
    let _restored := restore_simple_text r.1 ep.2
    (attrs2, r.2)

def ddp_apply (ctx : RewriteCtx) (data_node : Elem) : Elem × Bool :=
  let m := ElemList.mapTagAttrs "Option" (process_option_elem ctx) data_node.children
  (.mk data_node.tag data_node.attrs m.1, m.2)

def process_user_defines (ctx : RewriteCtx) (d : ElemList) : ElemList × Bool :=
  if !ctx.need_check_pk then (d, false)
  else
    ElemList.mapOver
      (Elem.mapTagDeep "data_defined_properties" (ddp_apply ctx) (ElemList.depth d + 1)) d

def renderer_step (ctx : RewriteCtx) (e : Elem) : Elem × Bool :=
  if hasAttr e.attrs "type" then
    if getAttr e.attrs "type" == "categorizedSymbol" then process_categories e
    else if getAttr e.attrs "type" == "RuleRenderer" then process_rules ctx e
    else (e, false)
  else (e, false)

def walk_step (ctx : RewriteCtx) (st : ElemList × Bool) (i : Nat) : ElemList × Bool :=
  let r1 := ElemList.updateNthTag "renderer-v2" (renderer_step ctx) i st.1
  let r2 := process_label ctx r1.1
  let r3 := process_user_defines ctx r2.1
  (r3.1, st.2 || r1.2.2 || r2.2 || r3.2)

/-- `NGWQMLProcessor.process` (`utils.py` lines 445-462). -/
def process (qml : String) (ctx : RewriteCtx) (d : ElemList) : String :=
  let r := (List.range (ElemList.countTag "renderer-v2" d)).foldl (walk_step ctx) (d, false)
  if !r.2 then qml else ElemList.serialize r.1

end NGWQMLProcessor

/-! ## Concrete documents and contexts used by witnesses and
counterexamples -/

/-- Modelled from the spec (§7): `QDomDocument.setContent` — Qt library
code, not part of this repository — yields an empty tree for malformed
XML input, so the parse of any non-well-formed document is the empty
element list. -/
def malformed_parse_result : ElemList := .nil

/-- A layer with one boolean field `flag` on a non-`ogr` provider. -/
def boolFlagCtx : RewriteCtx := ⟨["flag"], "", false⟩

/-- A document with one renderer and a label on the boolean field `flag`. -/
def boolFlagDoc : ElemList :=
  .cons (.mk "renderer-v2" []
    (.cons (.mk "text-style" [("fieldName", "flag")] .nil) .nil)) .nil

/-- A document with one renderer and a label whose expression contains a
single-quoted literal next to a boolean field reference. -/
def quotedLabelDoc : ElemList :=
  .cons (.mk "renderer-v2" []
    (.cons (.mk "text-style" [("fieldName", "\"flag\" = 'yes'")] .nil) .nil)) .nil

/-! ## Claim theorems -/

/-- C1. For every input style document text and field metadata, `process`
returns the input text byte-for-byte when no rewrite rule fired anywhere
in the document (the change flag is false), and otherwise returns the
serialization of the mutated tree; the tree is never serialized unless
the change flag is true. -/
theorem c1_process_returns_original_unless_changed
    (qml : String) (ctx : RewriteCtx) (d : ElemList) :
    QMLProcessor.process qml ctx d =
      if (QMLProcessor.walk ctx d).2 then ElemList.serialize (QMLProcessor.walk ctx d).1
      else qml := rfl

/-- C8. For a non-well-formed input text the parse step yields an empty
tree (see `malformed_parse_result`); `process` — a total function in this
embedding, raising nothing — returns the input text unchanged and the
change flag stays false. -/
theorem c8_malformed_input_returns_unchanged (qml : String) (ctx : RewriteCtx) :
    QMLProcessor.process qml ctx malformed_parse_result = qml ∧
    (QMLProcessor.walk ctx malformed_parse_result).2 = false :=
  ⟨rfl, rfl⟩

/-- C10. If the parsed document contains no `renderer-v2` element,
`process` returns the input text unchanged: label and user-defined
property processing only run inside the per-renderer loop. -/
theorem c10_no_renderer_no_change (qml : String) (ctx : RewriteCtx) (d : ElemList)
    (h : ElemList.countTag "renderer-v2" d = 0) :
    QMLProcessor.process qml ctx d = qml := by
  unfold QMLProcessor.process
  rw [h]
  rfl

/-- Witness for C10: a document holding a `text-style` element whose
`fieldName` would be rewritten under this context, but no `renderer-v2`. -/
theorem c10_no_renderer_witness :
    ElemList.countTag "renderer-v2"
      (ElemList.cons (Elem.mk "text-style" [("fieldName", "flag")] .nil) .nil) = 0 ∧
    QMLProcessor.process "original text" ⟨["flag"], "gid", true⟩
      (ElemList.cons (Elem.mk "text-style" [("fieldName", "flag")] .nil) .nil)
      = "original text" :=
  ⟨by decide,
   c10_no_renderer_no_change "original text" ⟨["flag"], "gid", true⟩
     (ElemList.cons (Elem.mk "text-style" [("fieldName", "flag")] .nil) .nil) (by decide)⟩

/-- C2, counterexample.  Running the rewriter on its own output does not
yield the same text: on `boolFlagDoc` the first run rewrites the label
expression to `if("flag", true, false)`, and a second rewriter built on
that output (its parse being the mutated tree, since serialization round
trips) rewrites the quoted `"flag"` inside the inserted text again,
producing `if(if("flag", true, false), true, false)`. -/
theorem c2_second_pass_changes_output :
    QMLProcessor.process (QMLProcessor.process "orig" boolFlagCtx boolFlagDoc)
        boolFlagCtx (QMLProcessor.walk boolFlagCtx boolFlagDoc).1
      ≠ QMLProcessor.process "orig" boolFlagCtx boolFlagDoc := by
  decide

/-- C2, amended: a second run yields the same text as the first whenever
the first run fired no rewrite rule (the change flag stayed false), the
output then being the input itself; when a boolean-field substitution
fired, the second pass re-matches the quoted field name inside the
inserted `if("F", true, false)` text and the output differs (see the
counterexample). -/
theorem c2_second_pass_identity_when_unchanged
    (qml : String) (ctx : RewriteCtx) (d : ElemList)
    (h : (QMLProcessor.walk ctx d).2 = false) :
    QMLProcessor.process (QMLProcessor.process qml ctx d) ctx d
      = QMLProcessor.process qml ctx d := by
  have h1 : QMLProcessor.process qml ctx d = qml := by
    show (if (QMLProcessor.walk ctx d).2 then ElemList.serialize (QMLProcessor.walk ctx d).1
          else qml) = qml
    rw [h]
    rfl
  rw [h1]
  exact h1

/-- Witness for C2's amended statement at a renderer-only document where
nothing fires. -/
theorem c2_second_pass_identity_witness :
    (QMLProcessor.walk ⟨[], "", false⟩ (.cons (.mk "renderer-v2" [] .nil) .nil)).2 = false ∧
    QMLProcessor.process
        (QMLProcessor.process "orig" ⟨[], "", false⟩ (.cons (.mk "renderer-v2" [] .nil) .nil))
        ⟨[], "", false⟩ (.cons (.mk "renderer-v2" [] .nil) .nil)
      = QMLProcessor.process "orig" ⟨[], "", false⟩ (.cons (.mk "renderer-v2" [] .nil) .nil) :=
  ⟨by decide,
   c2_second_pass_identity_when_unchanged "orig" ⟨[], "", false⟩
     (.cons (.mk "renderer-v2" [] .nil) .nil) (by decide)⟩

/-- C4.  The label path evaluates the code at the failing input: for the
label expression `"flag" = 'yes'` with boolean field `flag`, the value
written back into `fieldName` is the masked, substituted expression — the
`$$0$$` placeholder introduced by masking remains in the written
attribute (the restoration result of `_process_label` is discarded, lines
108-126), contradicting the requirement that every written attribute has
its literals restored. -/
theorem c4_label_writes_unrestored_placeholder :
    ElemList.serialize (QMLProcessor.walk boolFlagCtx quotedLabelDoc).1
      = "<renderer-v2><text-style fieldName=\"if(\"flag\", true, false) = $$0$$\" isExpression=\"1\"></text-style></renderer-v2>"
    ∧ "$$0$$".data <:+: (ElemList.serialize (QMLProcessor.walk boolFlagCtx quotedLabelDoc).1).data
    ∧ (QMLProcessor.walk boolFlagCtx quotedLabelDoc).2 = true := by
  refine ⟨by decide, ?_, by decide⟩
  decide

/-- The two constructors derive the same rewrite context (the inverted
`if not pk_field.type() == LongLong` spelling notwithstanding). -/
theorem ngw_init_eq (layer : Layer) :
    NGWQMLProcessor.init layer = QMLProcessor.init layer := by
  unfold NGWQMLProcessor.init QMLProcessor.init
  cases hp : layer.providerType == "ogr" <;>
    cases hattrs : layer.primaryKeyAttributes <;>
      simp only
  cases hty : (layer.fields.getD _ ⟨"", FieldType.Other⟩).type == FieldType.LongLong <;>
    simp [hty]

/-- The final lines of the two `process` methods spell the same branch in
opposite orders. -/
theorem ngw_process_aux (qml : String) (r : ElemList × Bool) :
    (if !r.2 then qml else ElemList.serialize r.1)
      = (if r.2 then ElemList.serialize r.1 else qml) := by
  cases h : r.2 <;> simp [h]

/-- The two `process` methods agree on every context. -/
theorem ngw_process_eq (qml : String) (ctx : RewriteCtx) (d : ElemList) :
    NGWQMLProcessor.process qml ctx d = QMLProcessor.process qml ctx d :=
  ngw_process_aux qml
    ((List.range (ElemList.countTag "renderer-v2" d)).foldl (QMLProcessor.walk_step ctx) (d, false))

/-- C9. For every input document text and layer metadata the two copies of
the rewriter are behaviorally equal: `QMLProcessor.process` and
`NGWQMLProcessor.process` return the same output string. -/
theorem c9_processors_equivalent (qml : String) (layer : Layer) (d : ElemList) :
    NGWQMLProcessor.process qml (NGWQMLProcessor.init layer) d
      = QMLProcessor.process qml (QMLProcessor.init layer) d := by
  rw [ngw_init_eq, ngw_process_eq]

/-- `List.isPrefixOf` soundness, in the decomposition form used below. -/
theorem isPrefixOf_exists {l s : List Char} (h : l.isPrefixOf s = true) :
    ∃ t, s = l ++ t := by
  induction l generalizing s with
  | nil => exact ⟨s, rfl⟩
  | cons c cs ih =>
    cases s with
    | nil => simp [List.isPrefixOf] at h
    | cons e es =>
      simp only [List.isPrefixOf, Bool.and_eq_true, beq_iff_eq] at h
      obtain ⟨rfl, h2⟩ := h
      obtain ⟨t, rfl⟩ := ih h2
      exact ⟨t, rfl⟩

/-- The substitution scanner leaves an expression unchanged when the field
name does not occur in it at all. -/
theorem subGo_no_occurrence (F r : List Char) :
    ∀ (s : List Char) (prev : Option Char), ¬(F <:+: s) → subGo F r prev 0 s = (s, 0)
  | [], _, _ => rfl
  | c :: cs, prev, h => by
    have htail : ¬(F <:+: cs) := by
      intro hin
      obtain ⟨s1, t1, ht1⟩ := hin
      exact h ⟨c :: s1, t1, by rw [List.cons_append, List.cons_append, ht1]⟩
    have h1 : ('"' :: (F ++ ['"'])).isPrefixOf (c :: cs) = false := by
      cases hp : ('"' :: (F ++ ['"'])).isPrefixOf (c :: cs) with
      | false => rfl
      | true =>
        exfalso
        obtain ⟨t, ht⟩ := isPrefixOf_exists hp
        exact h ⟨['"'], '"' :: t, by simpa using ht.symm⟩
    have h2 : F.isPrefixOf (c :: cs) = false := by
      cases hp : F.isPrefixOf (c :: cs) with
      | false => rfl
      | true =>
        exfalso
        obtain ⟨t, ht⟩ := isPrefixOf_exists hp
        exact h ⟨[], t, by simpa using ht.symm⟩
    have hrec := subGo_no_occurrence F r cs (some c) htail
    simp [subGo, h1, h2, hrec]

/-- C5, counterexample.  With boolean fields `flag` then `true`, in that
order, the second field's substitution rewrites the `true` that the first
field's substitution inserted, although `true` never occurred in the
original expression `flag`: the claim that substitutions never rewrite
text inserted by an earlier field's substitution is false. -/
theorem c5_substitution_retriggers_on_inserted_text :
    bool_to_int "true" (bool_to_int "flag" "flag").1
      = ("if(\"flag\", if(\"true\", true, false), false)", true)
    ∧ ¬("true".data <:+: "flag".data) := by
  refine ⟨by decide, ?_⟩
  decide

/-- C5, amended: a field's substitution pattern matches only occurrences
of its own name, so a later field's substitution leaves the whole
expression — text inserted by earlier substitutions included — unchanged
precisely when that field's name does not occur as a substring of the
intermediate expression; a boolean field named `if`, `true` or `false`
does occur inside the inserted `if("F", true, false)` text and re-fires
(see the counterexample). -/
theorem c5_no_rewrite_without_occurrence (F expression : String)
    (h : ¬(F.data <:+: expression.data)) :
    bool_to_int F expression = (expression, false) := by
  unfold bool_to_int subPattern
  rw [subGo_no_occurrence _ _ _ _ h]
  rfl

/-- Witness for C5's amended statement. -/
theorem c5_no_rewrite_witness :
    ¬("foo".data <:+: "bar baz".data)
    ∧ bool_to_int "foo" "bar baz" = ("bar baz", false) :=
  ⟨by decide, c5_no_rewrite_without_occurrence "foo" "bar baz" (by decide)⟩

/-- Every occurrence of `F` in the scanned text is embedded: it has a word
character immediately before or immediately after it (the scan carries the
previously consumed character). -/
def occursOnlyEmbedded (F : List Char) : Option Char → List Char → Bool
  | _, [] => true
  | prev, c :: cs =>
    ((!F.isPrefixOf (c :: cs)) || wOpt prev || wOpt ((c :: cs).drop F.length).head?)
    && occursOnlyEmbedded F (some c) cs

theorem beq_false_of_isW {x y : Char} (hx : isW x = true) (hy : isW y = false) :
    (x == y) = false :=
  beq_false_of_ne (fun he => by rw [he, hy] at hx; exact Bool.false_ne_true hx)

theorem beq_false_of_isW_rev {y : Char} (hy : isW y = true) : (('"' : Char) == y) = false :=
  beq_false_of_ne (fun he => by rw [← he] at hy; simp [isW] at hy)

theorem isPrefixOf_app (l t : List Char) : l.isPrefixOf (l ++ t) = true := by
  induction l with
  | nil => cases t <;> rfl
  | cons c cs ih => simp [List.isPrefixOf, ih]

/-- One unrolling of the scanner at an unconsumed position. -/
theorem subGo_cons_step (F repl : List Char) (prev : Option Char) (c : Char) (cs : List Char) :
    subGo F repl prev 0 (c :: cs) =
      if ('"' :: (F ++ ['"'])).isPrefixOf (c :: cs) then
        (repl ++ (subGo F repl (some c) (F.length + 1) cs).1,
          (subGo F repl (some c) (F.length + 1) cs).2 + 1)
      else if (!F.isEmpty) && F.isPrefixOf (c :: cs)
          && (wOpt prev != isW c)
          && (wOpt F.getLast? != wOpt ((c :: cs).drop F.length).head?) then
        (repl ++ (subGo F repl (some c) (F.length - 1) cs).1,
          (subGo F repl (some c) (F.length - 1) cs).2 + 1)
      else
        (c :: (subGo F repl (some c) 0 cs).1, (subGo F repl (some c) 0 cs).2) := rfl

theorem wOpt_getLast {F : List Char} (hw : ∀ c ∈ F, isW c = true) (hne : F ≠ []) :
    wOpt F.getLast? = true := by
  induction F with
  | nil => exact absurd rfl hne
  | cons c cs ih =>
    cases cs with
    | nil => simpa [wOpt] using hw c (by simp)
    | cons e es =>
      rw [List.getLast?_cons_cons]
      exact ih (fun x hx => hw x (by simp [hx])) (by simp)

/-- Fully consuming the skip counter returns the empty result. -/
theorem subGo_skip_all (F r : List Char) :
    ∀ (l : List Char) (prev : Option Char) (k : Nat), l.length ≤ k → subGo F r prev k l = ([], 0)
  | [], _, _, _ => rfl
  | c :: cs, _, 0, hk => absurd hk (by simp)
  | c :: cs, prev, Nat.succ k, hk => by
    have := subGo_skip_all F r cs (some c) k (Nat.le_of_succ_le_succ hk)
    simpa [subGo] using this

/-- Consuming exactly `l.length` skipped characters resumes the scan on
`rest` with some previous-character state. -/
theorem subGo_skip_exact (F r : List Char) :
    ∀ (l rest : List Char) (prev : Option Char),
      ∃ p, subGo F r prev l.length (l ++ rest) = subGo F r p 0 rest
  | [], rest, prev => ⟨prev, rfl⟩
  | c :: cs, rest, prev => by
    obtain ⟨p, hp⟩ := subGo_skip_exact F r cs rest (some c)
    exact ⟨p, hp⟩

/-- A single non-word character is never matched when the field name is a
nonempty run of word characters. -/
theorem subGo_single_nonword (F r : List Char) (hne : F ≠ [])
    (hw : ∀ c ∈ F, isW c = true) (b : Char) (hb : isW b = false) (prev : Option Char) :
    subGo F r prev 0 [b] = ([b], 0) := by
  cases F with
  | nil => exact absurd rfl hne
  | cons f fs =>
    have hfb : (f == b) = false := beq_false_of_isW (hw f (by simp)) hb
    have h1 : ('"' :: ((f :: fs) ++ ['"'])).isPrefixOf [b] = false := by
      simp [List.isPrefixOf]
    have h2 : (f :: fs).isPrefixOf [b] = false := by
      simp [List.isPrefixOf, hfb]
    rw [subGo_cons_step, h1, h2]
    simp [subGo]

/-- The scanner never matches when every occurrence of the (nonempty,
word-character) field name is embedded inside a longer identifier. -/
theorem subGo_embedded (F r : List Char) (hne : F ≠ []) (hw : ∀ c ∈ F, isW c = true) :
    ∀ (s : List Char) (prev : Option Char),
      occursOnlyEmbedded F prev s = true → subGo F r prev 0 s = (s, 0)
  | [], _, _ => rfl
  | c :: cs, prev, h => by
    simp only [occursOnlyEmbedded, Bool.and_eq_true] at h
    obtain ⟨hc, htail⟩ := h
    have h1 : ('"' :: (F ++ ['"'])).isPrefixOf (c :: cs) = false := by
      cases hp : ('"' :: (F ++ ['"'])).isPrefixOf (c :: cs) with
      | false => rfl
      | true =>
        exfalso
        obtain ⟨t, ht⟩ := isPrefixOf_exists hp
        have hcq : c = '"' := by
          have := congrArg (fun l => l.head?) ht
          simpa using this
        have hcs : cs = F ++ ('"' :: t) := by
          have := congrArg (fun l => l.tail) ht
          simpa [List.append_assoc] using this
        rw [hcs, hcq] at htail
        cases F with
        | nil => exact absurd rfl hne
        | cons f fs =>
          rw [List.cons_append] at htail
          simp only [occursOnlyEmbedded, Bool.and_eq_true] at htail
          have hpre : (f :: fs).isPrefixOf ((f :: fs) ++ ('"' :: t)) = true :=
            isPrefixOf_app _ _
          have hdrop : (((f :: fs) ++ ('"' :: t)).drop (f :: fs).length).head? = some '"' := by
            rw [List.drop_left]
            rfl
          have hfirst := htail.1
          rw [List.cons_append] at hpre hdrop
          rw [hpre, hdrop] at hfirst
          have hq : wOpt (some '"') = false := by decide
          rw [hq] at hfirst
          simp at hfirst
    have h2 : ((!F.isEmpty) && F.isPrefixOf (c :: cs)
        && (wOpt prev != isW c)
        && (wOpt F.getLast? != wOpt ((c :: cs).drop F.length).head?)) = false := by
      cases hF : F.isPrefixOf (c :: cs) with
      | false => simp
      | true =>
        have hcw : isW c = true := by
          cases F with
          | nil => exact absurd rfl hne
          | cons f fs =>
            have hfc : f = c := by
              simp only [List.isPrefixOf, Bool.and_eq_true, beq_iff_eq] at hF
              exact hF.1
            rw [← hfc]
            exact hw f (by simp)
        have hlast : wOpt F.getLast? = true := wOpt_getLast hw hne
        have hor : (wOpt prev || wOpt ((c :: cs).drop F.length).head?) = true := by
          rw [hF] at hc
          simpa using hc
        cases hp1 : wOpt prev with
        | true => simp [hcw]
        | false =>
          have hnext : wOpt ((c :: cs).drop F.length).head? = true := by
            rw [hp1] at hor
            simpa using hor
          simp [hlast]
          intro h1w h2w
          simpa using hnext
    have hrec := subGo_embedded F r hne hw cs (some c) htail
    rw [subGo_cons_step, h1, h2, hrec]
    simp

/-- C6.  Field-reference matching: (i) when every occurrence of the field
name `F` in the expression is embedded inside a longer identifier (a word
character adjacent on either side), neither the PK nor the boolean
substitution changes the expression; (ii) the exact double-quoted form
`"F"` standing alone is replaced, with one match counted; (iii) a bare
occurrence of `F` delimited by non-word characters is replaced, with one
match counted. -/
theorem c6_word_boundary_matching (F : String) (r : List Char) (hne : F.data ≠ [])
    (hw : ∀ c ∈ F.data, isW c = true) :
    (∀ s : String, occursOnlyEmbedded F.data none s.data = true →
        pk_to_id F s = (s, false) ∧ bool_to_int F s = (s, false))
    ∧ subGo F.data r none 0 ('"' :: (F.data ++ ['"'])) = (r, 1)
    ∧ (∀ a b, isW a = false → a ≠ '"' → isW b = false →
        subGo F.data r none 0 (a :: (F.data ++ [b])) = (a :: (r ++ [b]), 1)) := by
  refine ⟨?_, ?_, ?_⟩
  · intro s hs
    constructor
    · unfold pk_to_id subPattern
      rw [subGo_embedded F.data _ hne hw s.data none hs]
      rfl
    · unfold bool_to_int subPattern
      rw [subGo_embedded F.data _ hne hw s.data none hs]
      rfl
  · have hpre : ('"' :: (F.data ++ ['"'])).isPrefixOf ('"' :: (F.data ++ ['"'])) = true := by
      have happ := isPrefixOf_app ('"' :: (F.data ++ ['"'])) []
      rw [List.append_nil] at happ
      exact happ
    have hskip := subGo_skip_all F.data r (F.data ++ ['"']) (some '"') (F.data.length + 1)
      (by simp)
    rw [subGo_cons_step, hpre, hskip]
    simp
  · intro a b ha haq hb
    cases hFd : F.data with
    | nil => exact absurd hFd hne
    | cons f fs =>
      have hwf : ∀ c ∈ (f :: fs), isW c = true := by
        rw [← hFd]; exact hw
      have hfw : isW f = true := hwf f (by simp)
      have h1a : ('"' == a) = false := beq_false_of_ne (fun he => haq he.symm)
      have hfa : (f == a) = false := beq_false_of_isW hfw ha
      have hfq : ('"' == f) = false := beq_false_of_isW_rev hfw
      have hstep2 : subGo (f :: fs) r (some a) 0 ((f :: fs) ++ [b]) = (r ++ [b], 1) := by
        obtain ⟨p, hp⟩ := subGo_skip_exact (f :: fs) r fs [b] (some f)
        have hsingle := subGo_single_nonword (f :: fs) r (by simp) hwf b hb p
        have hpre2 := isPrefixOf_app (f :: fs) [b]
        have hlast : wOpt (f :: fs).getLast? = true := wOpt_getLast hwf (by simp)
        have hdrop : (((f :: fs) ++ [b]).drop (f :: fs).length).head? = some b := by
          rw [List.drop_left]
          rfl
        rw [List.cons_append] at hpre2 hdrop ⊢
        have halt1 : ('"' :: ((f :: fs) ++ ['"'])).isPrefixOf (f :: (fs ++ [b])) = false := by
          simp [List.isPrefixOf, hfq]
        have hcond2 : (!(f :: fs).isEmpty && (f :: fs).isPrefixOf (f :: (fs ++ [b]))
            && (wOpt (some a) != isW f)
            && (wOpt (f :: fs).getLast? != wOpt ((f :: (fs ++ [b])).drop (f :: fs).length).head?))
            = true := by
          rw [hpre2, hdrop, hlast]
          simp [wOpt, ha, hfw, hb]
        rw [subGo_cons_step, halt1, hcond2]
        have hlen : (f :: fs).length - 1 = fs.length := by simp
        rw [hlen, hp, hsingle]
        simp
      have halt1a : ('"' :: ((f :: fs) ++ ['"'])).isPrefixOf (a :: ((f :: fs) ++ [b])) = false := by
        simp [List.isPrefixOf, h1a]
      have hcond2a : (!(f :: fs).isEmpty && (f :: fs).isPrefixOf (a :: ((f :: fs) ++ [b]))
          && (wOpt none != isW a)
          && (wOpt (f :: fs).getLast?
                != wOpt ((a :: ((f :: fs) ++ [b])).drop (f :: fs).length).head?)) = false := by
        have halt2a : (f :: fs).isPrefixOf (a :: ((f :: fs) ++ [b])) = false := by
          simp [List.isPrefixOf, hfa]
        rw [halt2a]
        simp
      rw [subGo_cons_step, halt1a, hcond2a, hstep2]
      simp

mutual
theorem Elem.mapTagAttrs_congr (t : String)
    {f g : List (String × String) → List (String × String) × Bool}
    (h : ∀ a, f a = g a) : ∀ e : Elem, Elem.mapTagAttrs t f e = Elem.mapTagAttrs t g e
  | .mk tag attrs cs => by
    simp only [Elem.mapTagAttrs]
    rw [ElemList.mapTagAttrs_congrAll t h cs, h attrs]
theorem ElemList.mapTagAttrs_congrAll (t : String)
    {f g : List (String × String) → List (String × String) × Bool}
    (h : ∀ a, f a = g a) : ∀ l : ElemList, ElemList.mapTagAttrs t f l = ElemList.mapTagAttrs t g l
  | .nil => rfl
  | .cons e es => by
    simp only [ElemList.mapTagAttrs]
    rw [Elem.mapTagAttrs_congr t h e, ElemList.mapTagAttrs_congrAll t h es]
end

mutual
theorem Elem.updateFirstTag_congr (t : String) {f g : Elem → Elem × Bool}
    (h : ∀ e, f e = g e) : ∀ e : Elem, Elem.updateFirstTag t f e = Elem.updateFirstTag t g e
  | .mk tag attrs cs => by
    simp only [Elem.updateFirstTag]
    rw [ElemList.updateFirstTag_congrAll t h cs, h]
theorem ElemList.updateFirstTag_congrAll (t : String) {f g : Elem → Elem × Bool}
    (h : ∀ e, f e = g e) :
    ∀ l : ElemList, ElemList.updateFirstTag t f l = ElemList.updateFirstTag t g l
  | .nil => rfl
  | .cons e es => by
    simp only [ElemList.updateFirstTag]
    rw [Elem.updateFirstTag_congr t h e, ElemList.updateFirstTag_congrAll t h es]
end

mutual
theorem Elem.updateNthTag_congr (t : String) {f g : Elem → Elem × Bool}
    (h : ∀ e, f e = g e) : ∀ (n : Nat) (e : Elem),
      Elem.updateNthTag t f n e = Elem.updateNthTag t g n e
  | 0, .mk tag attrs cs => by
    simp only [Elem.updateNthTag]
    rw [ElemList.updateNthTag_congrAll t h 0 cs, h]
  | Nat.succ m, .mk tag attrs cs => by
    simp only [Elem.updateNthTag]
    rw [ElemList.updateNthTag_congrAll t h m cs, ElemList.updateNthTag_congrAll t h (Nat.succ m) cs]
theorem ElemList.updateNthTag_congrAll (t : String) {f g : Elem → Elem × Bool}
    (h : ∀ e, f e = g e) : ∀ (n : Nat) (l : ElemList),
      ElemList.updateNthTag t f n l = ElemList.updateNthTag t g n l
  | _, .nil => rfl
  | n, .cons e es => by
    simp only [ElemList.updateNthTag]
    rw [Elem.updateNthTag_congr t h n e]
    split
    next => rfl
    next m hm => rw [ElemList.updateNthTag_congrAll t h m es]
end

/-- With the PK check disabled, the rule transform ignores the PK field
name. -/
theorem process_rule_elem_nopk (bf : List String) (n1 n2 : String)
    (a : List (String × String)) :
    QMLProcessor.process_rule_elem ⟨bf, n1, false⟩ a
      = QMLProcessor.process_rule_elem ⟨bf, n2, false⟩ a := by
  simp [QMLProcessor.process_rule_elem]

/-- With the PK check disabled, the label transform ignores the PK field
name. -/
theorem process_label_elem_nopk (bf : List String) (n1 n2 : String)
    (a : List (String × String)) :
    QMLProcessor.process_label_elem ⟨bf, n1, false⟩ a
      = QMLProcessor.process_label_elem ⟨bf, n2, false⟩ a := by
  simp [QMLProcessor.process_label_elem]

theorem rules_apply_nopk (bf : List String) (n1 n2 : String) (rn : Elem) :
    QMLProcessor.rules_apply ⟨bf, n1, false⟩ rn = QMLProcessor.rules_apply ⟨bf, n2, false⟩ rn := by
  unfold QMLProcessor.rules_apply
  rw [ElemList.mapTagAttrs_congrAll "rule" (process_rule_elem_nopk bf n1 n2) rn.children]

theorem process_rules_nopk (bf : List String) (n1 n2 : String) (e : Elem) :
    QMLProcessor.process_rules ⟨bf, n1, false⟩ e
      = QMLProcessor.process_rules ⟨bf, n2, false⟩ e := by
  unfold QMLProcessor.process_rules
  rw [ElemList.updateFirstTag_congrAll "rules" (rules_apply_nopk bf n1 n2) e.children]

theorem renderer_step_nopk (bf : List String) (n1 n2 : String) (e : Elem) :
    QMLProcessor.renderer_step ⟨bf, n1, false⟩ e
      = QMLProcessor.renderer_step ⟨bf, n2, false⟩ e := by
  unfold QMLProcessor.renderer_step
  rw [process_rules_nopk bf n1 n2 e]

theorem process_label_nopk (bf : List String) (n1 n2 : String) (d : ElemList) :
    QMLProcessor.process_label ⟨bf, n1, false⟩ d
      = QMLProcessor.process_label ⟨bf, n2, false⟩ d := by
  unfold QMLProcessor.process_label
  rw [ElemList.mapTagAttrs_congrAll "text-style" (process_label_elem_nopk bf n1 n2) d]

theorem process_user_defines_nopk (bf : List String) (n1 n2 : String) (d : ElemList) :
    QMLProcessor.process_user_defines ⟨bf, n1, false⟩ d
      = QMLProcessor.process_user_defines ⟨bf, n2, false⟩ d := by
  simp [QMLProcessor.process_user_defines]

theorem walk_step_nopk (bf : List String) (n1 n2 : String)
    (st : ElemList × Bool) (i : Nat) :
    QMLProcessor.walk_step ⟨bf, n1, false⟩ st i = QMLProcessor.walk_step ⟨bf, n2, false⟩ st i := by
  simp only [QMLProcessor.walk_step]
  rw [ElemList.updateNthTag_congrAll "renderer-v2" (renderer_step_nopk bf n1 n2) i st.1,
      process_label_nopk bf n1 n2, process_user_defines_nopk bf n1 n2]

theorem foldl_congr_fun {α β : Type} {f g : α → β → α} (h : ∀ st i, f st i = g st i) :
    ∀ (l : List β) (init : α), l.foldl f init = l.foldl g init
  | [], _ => rfl
  | b :: bs, init => by
    rw [List.foldl_cons, List.foldl_cons, h, foldl_congr_fun h bs]

/-- With the PK check disabled, the whole document walk is independent of
the stored PK field name: no primary-key substitution is ever applied. -/
theorem walk_pk_irrelevant (bf : List String) (n1 n2 : String) (d : ElemList) :
    QMLProcessor.walk ⟨bf, n1, false⟩ d = QMLProcessor.walk ⟨bf, n2, false⟩ d := by
  unfold QMLProcessor.walk
  exact foldl_congr_fun (fun st i => walk_step_nopk bf n1 n2 st i) _ _

/-- Under any of the disabling conditions, the constructor yields a context
with the PK check off and an empty PK field name. -/
theorem init_no_pk (layer : Layer)
    (h : layer.providerType ≠ "ogr" ∨ layer.primaryKeyAttributes = [] ∨
         (layer.fields.getD (layer.primaryKeyAttributes.headD 0)
            ⟨"", FieldType.Other⟩).type ≠ FieldType.LongLong) :
    QMLProcessor.init layer
      = ⟨(layer.fields.filter (fun f => f.type == FieldType.Bool)).map LayerField.name,
          "", false⟩ := by
  unfold QMLProcessor.init
  rcases h with h | h | h
  · have hp : (layer.providerType == "ogr") = false := by
      simpa using h
    rw [hp]
  · cases hb : (layer.providerType == "ogr") <;> rw [h]
  · cases hb : (layer.providerType == "ogr") with
    | false => rfl
    | true =>
      cases hattrs : layer.primaryKeyAttributes with
      | nil => rfl
      | cons idx rest =>
        rw [hattrs] at h
        have hty : ((layer.fields.getD idx ⟨"", FieldType.Other⟩).type
            == FieldType.LongLong) = false := by
          simpa using h
        simp only [hty]
        rfl

/-- C7. If the provider is not `ogr`, or the layer has no primary-key
attribute, or the primary-key field's type is not 64-bit integer, then the
constructor disables the PK check and the document walk applies no
primary-key substitution anywhere: its result does not depend on the PK
field name at all. -/
theorem c7_pk_substitution_disabled (layer : Layer) (d : ElemList)
    (h : layer.providerType ≠ "ogr" ∨ layer.primaryKeyAttributes = [] ∨
         (layer.fields.getD (layer.primaryKeyAttributes.headD 0)
            ⟨"", FieldType.Other⟩).type ≠ FieldType.LongLong) :
    (QMLProcessor.init layer).need_check_pk = false ∧
    ∀ other : String,
      QMLProcessor.walk ⟨(QMLProcessor.init layer).bool_fields_name, other, false⟩ d
        = QMLProcessor.walk (QMLProcessor.init layer) d := by
  have hi := init_no_pk layer h
  constructor
  · rw [hi]
  · intro other
    rw [hi]
    exact walk_pk_irrelevant _ other "" d

/-- Witness for C7: a non-`ogr` provider with a boolean field. -/
theorem c7_pk_substitution_disabled_witness :
    (Layer.mk [⟨"flag", FieldType.Bool⟩] "memory" []).providerType ≠ "ogr" ∧
    (QMLProcessor.init (Layer.mk [⟨"flag", FieldType.Bool⟩] "memory" [])).need_check_pk = false ∧
    QMLProcessor.walk
        ⟨(QMLProcessor.init (Layer.mk [⟨"flag", FieldType.Bool⟩] "memory" [])).bool_fields_name,
          "gid", false⟩ boolFlagDoc
      = QMLProcessor.walk (QMLProcessor.init (Layer.mk [⟨"flag", FieldType.Bool⟩] "memory" []))
          boolFlagDoc :=
  ⟨by decide,
   (c7_pk_substitution_disabled (Layer.mk [⟨"flag", FieldType.Bool⟩] "memory" []) boolFlagDoc
      (Or.inl (by decide))).1,
   (c7_pk_substitution_disabled (Layer.mk [⟨"flag", FieldType.Bool⟩] "memory" []) boolFlagDoc
      (Or.inl (by decide))).2 "gid"⟩

/-- `$`-freeness of a chunk of text. -/
def noDollar (l : List Char) : Bool := l.all (fun c => c != '$')

/-- Split at the first occurrence of `pat`: the text before it and the
text after it. -/
def splitOnce (pat : List Char) : List Char → Option (List Char × List Char)
  | [] => none
  | c :: cs =>
    if pat.isPrefixOf (c :: cs) then some ([], (c :: cs).drop pat.length)
    else (splitOnce pat cs).map (fun q => (c :: q.1, q.2))

/-- The substituted masked expression is well-shaped for restoration:
it reads `a₀ ++ $$i$$ ++ a₁ ++ $$i+1$$ ++ …` with each `aⱼ` free of `$`,
and each saved literal is itself free of `$`. -/
def maskedShape (i : Nat) (m : List Char) : List String → Bool
  | [] => true
  | p :: ps =>
    match splitOnce (placeholder i) m with
    | none => false
    | some q => noDollar q.1 && noDollar p.data && maskedShape (i + 1) q.2 ps

/-- The sequence of substitutions `_process_label` applies to a masked
label expression: the PK substitution when enabled, then one boolean
substitution per boolean field in list order (lines 110-124). -/
def label_substitutions (ctx : RewriteCtx) (expression : String) : String :=
  let e1 := if ctx.need_check_pk then (pk_to_id ctx.pk_field_name expression).1 else expression
  ctx.bool_fields_name.foldl (fun e field_name => (bool_to_int field_name e).1) e1

theorem noDollar_cons {x : Char} {a : List Char} (h : noDollar (x :: a) = true) :
    ((x == '$') = false) ∧ noDollar a = true := by
  simp only [noDollar, List.all_cons, Bool.and_eq_true] at h
  exact ⟨by simpa using h.1, h.2⟩

theorem noDollar_append {a b : List Char} (ha : noDollar a = true) (hb : noDollar b = true) :
    noDollar (a ++ b) = true := by
  simp only [noDollar, List.all_append]
  simp only [noDollar] at ha hb
  rw [ha, hb]
  rfl

/-- Replacing the first occurrence at the very seam. -/
theorem replaceFirst_here (pat r b : List Char) (hne : pat ≠ []) :
    replaceFirst pat r (pat ++ b) = r ++ b := by
  cases pat with
  | nil => exact absurd rfl hne
  | cons p ps =>
    rw [List.cons_append]
    have hpre : (p :: ps).isPrefixOf (p :: (ps ++ b)) = true := by
      have happ := isPrefixOf_app (p :: ps) b
      rw [List.cons_append] at happ
      exact happ
    simp only [replaceFirst, hpre, if_true]
    simp [List.drop_left]

/-- A `$`-free chunk before the pattern is skipped untouched when the
pattern starts with `$`. -/
theorem replaceFirst_skip (pat r pt : List Char) (hpat : pat = '$' :: pt) :
    ∀ (a tail : List Char), noDollar a = true →
      replaceFirst pat r (a ++ tail) = a ++ replaceFirst pat r tail
  | [], tail, _ => by simp
  | x :: a, tail, ha => by
    obtain ⟨hx, ha2⟩ := noDollar_cons ha
    have hdx : (('$' : Char) == x) = false := by
      cases hh : ('$' : Char) == x with
      | false => rfl
      | true =>
        have hgx : ('$' : Char) = x := by simpa using hh
        rw [← hgx] at hx
        simp at hx
    rw [List.cons_append]
    have hnp : pat.isPrefixOf (x :: (a ++ tail)) = false := by
      rw [hpat]
      simp [List.isPrefixOf, hdx]
    simp only [replaceFirst, hnp]
    rw [replaceFirst_skip pat r pt hpat a tail ha2]
    simp

/-- Soundness of `splitOnce`. -/
theorem splitOnce_eq (pat : List Char) :
    ∀ (m a bb : List Char), splitOnce pat m = some (a, bb) → m = a ++ (pat ++ bb)
  | [], _, _, h => by simp [splitOnce] at h
  | c :: cs, a, bb, h => by
    simp only [splitOnce] at h
    split at h
    next hp =>
      obtain ⟨t, ht⟩ := isPrefixOf_exists hp
      have hdrop : (c :: cs).drop pat.length = t := by
        rw [ht, List.drop_left]
      rw [hdrop] at h
      obtain ⟨rfl, rfl⟩ : a = [] ∧ bb = t := by
        have := Option.some.inj h
        exact ⟨(Prod.mk.injEq _ _ _ _ ▸ this).1.symm, (Prod.mk.injEq _ _ _ _ ▸ this).2.symm⟩
      simpa using ht
    next hp =>
      cases hsp : splitOnce pat cs with
      | none => rw [hsp] at h; simp at h
      | some q =>
        rw [hsp] at h
        have h3 : (c :: q.1, q.2) = (a, bb) := Option.some.inj h
        have hq := splitOnce_eq pat cs q.1 q.2 (by rw [hsp])
        have ha : c :: q.1 = a := congrArg Prod.fst h3
        have hbb : q.2 = bb := congrArg Prod.snd h3
        rw [← ha, ← hbb, List.cons_append, ← hq]

/-- Restoration on a well-shaped masked expression keeps every already
restored `$`-free prefix intact. -/
theorem restoreAux_shape (parts : List String) :
    ∀ (i : Nat) (pre m : List Char), noDollar pre = true → maskedShape i m parts = true →
      ∃ t, restoreAux i (parts.map String.data) (pre ++ m) = pre ++ t := by
  induction parts with
  | nil => exact fun i pre m _ _ => ⟨m, rfl⟩
  | cons p ps ih =>
    intro i pre m hpre hm
    simp only [maskedShape] at hm
    split at hm
    next hsp => exact absurd hm (by simp)
    next q hsp =>
      have hand : (noDollar q.1 = true ∧ noDollar p.data = true)
          ∧ maskedShape (i + 1) q.2 ps = true := by
        simpa [Bool.and_eq_true] using hm
      have hmq := splitOnce_eq (placeholder i) m q.1 q.2 hsp
      have hstep : replaceFirst (placeholder i) p.data (pre ++ m)
          = (pre ++ q.1 ++ p.data) ++ q.2 := by
        rw [hmq, ← List.append_assoc]
        rw [replaceFirst_skip (placeholder i) p.data ('$' :: ((Nat.repr i).data ++ ['$', '$']))
              rfl (pre ++ q.1) (placeholder i ++ q.2) (noDollar_append hpre hand.1.1)]
        rw [replaceFirst_here _ _ _ (by simp [placeholder])]
        simp [List.append_assoc]
      show ∃ t, restoreAux (i + 1) (ps.map String.data)
          (replaceFirst (placeholder i) p.data (pre ++ m)) = pre ++ t
      rw [hstep]
      obtain ⟨t, ht⟩ := ih (i + 1) (pre ++ q.1 ++ p.data) q.2
        (noDollar_append (noDollar_append hpre hand.1.1) hand.1.2) hand.2
      refine ⟨q.1 ++ p.data ++ t, ?_⟩
      rw [ht]
      simp [List.append_assoc]

/-- On a well-shaped masked expression, every saved literal occurs intact
in the fully restored expression. -/
theorem restoreAux_keeps_parts (parts : List String) :
    ∀ (i : Nat) (pre m : List Char), noDollar pre = true → maskedShape i m parts = true →
      ∀ p ∈ parts, p.data <:+: restoreAux i (parts.map String.data) (pre ++ m) := by
  induction parts with
  | nil => intro _ _ _ _ _ p hp; exact absurd hp (by simp)
  | cons p0 ps ih =>
    intro i pre m hpre hm p hp
    simp only [maskedShape] at hm
    split at hm
    next hsp => exact absurd hm (by simp)
    next q hsp =>
      have hand : (noDollar q.1 = true ∧ noDollar p0.data = true)
          ∧ maskedShape (i + 1) q.2 ps = true := by
        simpa [Bool.and_eq_true] using hm
      have hmq := splitOnce_eq (placeholder i) m q.1 q.2 hsp
      have hstep : replaceFirst (placeholder i) p0.data (pre ++ m)
          = (pre ++ q.1 ++ p0.data) ++ q.2 := by
        rw [hmq, ← List.append_assoc]
        rw [replaceFirst_skip (placeholder i) p0.data ('$' :: ((Nat.repr i).data ++ ['$', '$']))
              rfl (pre ++ q.1) (placeholder i ++ q.2) (noDollar_append hpre hand.1.1)]
        rw [replaceFirst_here _ _ _ (by simp [placeholder])]
        simp [List.append_assoc]
      show p.data <:+: restoreAux (i + 1) (ps.map String.data)
          (replaceFirst (placeholder i) p0.data (pre ++ m))
      rw [hstep]
      rcases List.mem_cons.mp hp with rfl | hmem
      · obtain ⟨t, ht⟩ := restoreAux_shape ps (i + 1) (pre ++ q.1 ++ p.data) q.2
          (noDollar_append (noDollar_append hpre hand.1.1) hand.1.2) hand.2
        rw [ht]
        exact ⟨pre ++ q.1, t, by simp [List.append_assoc]⟩
      · exact ih (i + 1) (pre ++ q.1 ++ p0.data) q.2
          (noDollar_append (noDollar_append hpre hand.1.1) hand.1.2) hand.2 p hmem

/-- C3, counterexample.  In the rule-filter path (where the restored value
is written back), the quoted literal `'$$1$$'` of the filter expression
`'$$1$$' and 'x' and gid = 5` is recorded as a masked part but destroyed
by the primary-key rewrite pipeline: the written value
`''x'' and $$1$$ and @id = 5` no longer contains it, so literal text is
not preserved regardless of content. -/
theorem c3_quoted_literal_corrupted :
    (erase_simple_text "'$$1$$' and 'x' and gid = 5").2 = ["'$$1$$'", "'x'"]
    ∧ getAttr (QMLProcessor.process_rule_elem ⟨[], "gid", true⟩
        [("filter", "'$$1$$' and 'x' and gid = 5")]).1 "filter"
      = "''x'' and $$1$$ and @id = 5"
    ∧ ¬("'$$1$$'".data <:+: "''x'' and $$1$$ and @id = 5".data) := by
  refine ⟨by decide, by decide, ?_⟩
  decide

/-- C3, amended: the quoted literals of an expression survive masking,
primary-key and boolean substitution, and restoration verbatim provided
the substituted masked expression is still well-shaped — each placeholder
token present once, in order, separated by `$`-free text, and no literal's
content containing `$` (`maskedShape`).  A literal whose content resembles
a placeholder token breaks this shape and is corrupted (see the
counterexample). -/
theorem c3_literals_preserved_when_placeholders_intact (ctx : RewriteCtx) (e : String)
    (hshape : maskedShape 0 (label_substitutions ctx (erase_simple_text e).1).data
        (erase_simple_text e).2 = true)
    (p : String) (hp : p ∈ (erase_simple_text e).2) :
    p.data <:+: (restore_simple_text (label_substitutions ctx (erase_simple_text e).1)
        (erase_simple_text e).2).data := by
  have hres := restoreAux_keeps_parts (erase_simple_text e).2 0 []
    (label_substitutions ctx (erase_simple_text e).1).data rfl hshape p hp
  simpa [restore_simple_text] using hres

/-- Witness for C3's amended statement at the spec's own example: boolean
field `F`, expression `"status" = 'F'`; the literal `'F'` is preserved. -/
theorem c3_literals_preserved_witness :
    maskedShape 0 (label_substitutions ⟨["F"], "", false⟩
        (erase_simple_text "\"status\" = 'F'").1).data
      (erase_simple_text "\"status\" = 'F'").2 = true
    ∧ "'F'" ∈ (erase_simple_text "\"status\" = 'F'").2
    ∧ "'F'".data <:+: (restore_simple_text
        (label_substitutions ⟨["F"], "", false⟩ (erase_simple_text "\"status\" = 'F'").1)
        (erase_simple_text "\"status\" = 'F'").2).data :=
  ⟨by decide, by decide,
   c3_literals_preserved_when_placeholders_intact ⟨["F"], "", false⟩ "\"status\" = 'F'"
     (by decide) "'F'" (by decide)⟩

/-- Witness for C6 at the claim's own example: field `id`, expression
`gid + idx` (both occurrences of `id` embedded), and the standalone quoted
form `"id"`. -/
theorem c6_word_boundary_witness :
    ("id".data ≠ [] ∧ (∀ c ∈ "id".data, isW c = true)
      ∧ occursOnlyEmbedded "id".data none "gid + idx".data = true)
    ∧ pk_to_id "id" "gid + idx" = ("gid + idx", false)
    ∧ subGo "id".data "@id".data none 0 ('"' :: ("id".data ++ ['"'])) = ("@id".data, 1) :=
  ⟨⟨by decide, by decide, by decide⟩,
   ((c6_word_boundary_matching "id" "@id".data (by decide) (by decide)).1
      "gid + idx" (by decide)).1,
   (c6_word_boundary_matching "id" "@id".data (by decide) (by decide)).2.1⟩
